import Mathlib

/-!
Verification of the guide-bot cross-channel relay subsystem.

This file gives a shallow embedding of the TypeScript sources:

* `src/app.ts` (the file whose exported object is the `tagTranscoder`
  used by the relay): the `DISCORD_TAG_REGEX`-driven `encode` / `decode`
  pair over strings, with the tag table modelled as an association list
  with JavaScript `Map` semantics (`tset` replaces in place on an
  existing key, appends otherwise; `tget` returns the first binding).
* `src/events/messageCreateTranslate.ts`: the create-path orchestration
  (`translate`, `addReplyPing`, `translateChannel`, `execute`), with the
  external collaborators (channel cache, webhook cache, translation
  provider, message sending, the reply-embed lookup of
  `buildReplyEmbed`) abstracted as oracle fields of an `Env` record,
  and the observable effects (webhook send calls, the persisted
  message-link record) returned explicitly.
* `src/events/messageUpdateTranslate.ts`: the edit-path orchestration
  (`executeUpdate`), over an explicit store of message-link records.

Strings are processed as `List Char`; the scanner functions are written
with an explicit structural fuel argument (always instantiated with the
length of the input, which is proved sufficient) so that they compute by
kernel reduction.
-/

/-! ## The protected-token pattern

`DISCORD_TAG_REGEX = /<[:@][\d:]*>/g` from `src/app.ts`.  A match is a
literal `<`, one marker character `:` or `@`, a run of digits and
colons, then a literal `>`.  Because `>` is not in the middle character
class, matching at a position is deterministic: take the maximal run of
digit/colon characters after the marker and require the next character
to be `>`. -/

def isBody (c : Char) : Bool := c.isDigit || c = ':'

/-- Attempt of the regex at the start of `rest` after having consumed
`<` and the marker `m`: returns the full matched token and the rest. -/
def matchBody (m : Char) (rest : List Char) : Option (List Char × List Char) :=
  match rest.dropWhile isBody with
  | g :: tail => if g = '>' then some ('<' :: m :: (rest.takeWhile isBody ++ ['>']), tail) else none
  | [] => none

/-- Attempt of `DISCORD_TAG_REGEX` at the start of the list: on success
returns the matched token and the remainder of the list. -/
def matchAt : List Char → Option (List Char × List Char)
  | c :: m :: rest => if c = '<' then (if m = ':' ∨ m = '@' then matchBody m rest else none) else none
  | _ => none

/-! ## Decimal rendering of the placeholder counter

The encoder mints keys of the form `<:${counter}>`; the counter is a
JavaScript number rendered in decimal. -/

def digitChar (d : Nat) : Char :=
  if d = 0 then '0' else if d = 1 then '1' else if d = 2 then '2' else if d = 3 then '3'
  else if d = 4 then '4' else if d = 5 then '5' else if d = 6 then '6' else if d = 7 then '7'
  else if d = 8 then '8' else '9'

def digitVal (c : Char) : Nat := c.toNat - 48

/-- Decimal digits of a natural number, most significant first; the
fuel argument makes the recursion structural. -/
def natCharsF : Nat → Nat → List Char
  | 0, _ => []
  | fuel + 1, n => if n < 10 then [digitChar n] else natCharsF fuel (n / 10) ++ [digitChar (n % 10)]

def natChars (n : Nat) : List Char := natCharsF (n + 1) n

def parseNat (l : List Char) : Nat := l.foldl (fun a c => a * 10 + digitVal c) 0

/-- The placeholder minted for counter value `n`: the characters of
`<:${n}>`. -/
def tagKey (n : Nat) : List Char := '<' :: ':' :: (natChars n ++ ['>'])

/-! ## The tag table

`TTagTable = Map<string, string>` from `src/app.ts`, modelled as an
association list with JavaScript `Map` semantics: `tset` overwrites an
existing binding in place, otherwise appends; `tget` returns the first
binding of the key. -/

abbrev TagTable : Type := List (List Char × List Char)

def tget : TagTable → List Char → Option (List Char)
  | [], _ => none
  | (k, v) :: t, key => if k = key then some v else tget t key

def tset : TagTable → List Char → List Char → TagTable
  | [], key, v => [(key, v)]
  | (k, w) :: t, key, v => if k = key then (key, v) :: t else (k, w) :: tset t key v

/-! ## The tag transcoder

`tagTranscoder.encode` / `tagTranscoder.decode` from `src/app.ts`.
The source iterates `message.matchAll(DISCORD_TAG_REGEX)`, pushing the
literal span before each match and then the replacement, and finally
the trailing span.  The model scans left to right with `matchAt`; a
literal span is traversed one character at a time, which concatenates
to the same output.  The structural `fuel` argument (instantiated with
the input length, proved sufficient below) replaces the shrinking of
the scanned suffix. -/

def encodeF : Nat → List Char → Nat → TagTable → List Char × TagTable
  | 0, _, _, t => ([], t)
  | fuel + 1, s, counter, t =>
    match s with
    | [] => ([], t)
    | c :: cs =>
      match matchAt (c :: cs) with
      | some (tok, tail) =>
        let r := encodeF fuel tail (counter + 1) (tset t (tagKey counter) tok)
        (tagKey counter ++ r.1, r.2)
      | none =>
        let r := encodeF fuel cs counter t
        (c :: r.1, r.2)

/-- The encode scan, on characters: returns the encoded text and the
tag table. -/
def encodeAux (s : List Char) (counter : Nat) (t : TagTable) : List Char × TagTable :=
  encodeF s.length s counter t

def decodeF : Nat → List Char → TagTable → List Char
  | 0, _, _ => []
  | fuel + 1, s, t =>
    match s with
    | [] => []
    | c :: cs =>
      match matchAt (c :: cs) with
      | some (tok, tail) => (tget t tok).getD [] ++ decodeF fuel tail t
      | none => c :: decodeF fuel cs t

/-- The decode scan, on characters. -/
def decodeAux (s : List Char) (t : TagTable) : List Char := decodeF s.length s t

/-- The encoder of `tagTranscoder`: initial counter 0 and empty table. -/
def encode (message : String) : String × TagTable :=
  let r := encodeAux message.data 0 []
  (String.mk r.1, r.2)

/-- The decoder of `tagTranscoder`. -/
def decode (message : String) (tagTable : TagTable) : String :=
  String.mk (decodeAux message.data tagTable)

/-! ## Shape preservation by the encoder

The round-trip argument needs that replacing matched tokens by
placeholders neither creates nor destroys a pattern match at the border
of a literal span: the encoder preserves the head character of the
input, and it preserves whether the first non-body character is `>`. -/

def gtAfterBody (l : List Char) : Bool :=
  match l.dropWhile isBody with
  | g :: _ => g == '>'
  | [] => false

/-! ## Segmentation of a text by the pattern scan

The scan underlying both `encode` and `decode` cuts a text into
segments: matched tokens (flagged `true`) and literal characters
(flagged `false`).  This is the specification-level description of the
left-to-right `matchAll` traversal; `decode` is proved below to be the
segment-wise rendering. -/

def segmentsF : Nat → List Char → List (Bool × List Char)
  | 0, _ => []
  | fuel + 1, s =>
    match s with
    | [] => []
    | c :: cs =>
      match matchAt (c :: cs) with
      | some (tok, tail) => (true, tok) :: segmentsF fuel tail
      | none => (false, [c]) :: segmentsF fuel cs

def segments (s : List Char) : List (Bool × List Char) := segmentsF s.length s

/-- Rendering of one segment during decoding: a matched token is
replaced by its table binding (empty when absent), a literal span
passes through unchanged. -/
def renderSeg (t : TagTable) (p : Bool × List Char) : List Char :=
  if p.1 then (tget t p.2).getD [] else p.2

/-- Number of pattern matches found by the scan of a text. -/
def countMatches (s : List Char) : Nat := ((segments s).filter (·.1)).length

namespace Relay

deriving instance DecidableEq for Except

structure TrChannel where
  sourceLang : String
  targetLang : String
  deriving DecidableEq

structure ChannelInfo where
  isGuildText : Bool
  deriving DecidableEq

structure ChLink where
  links : List String
  deriving DecidableEq

structure Reply where
  authorBot : Bool
  authorId : String
  deriving DecidableEq

structure SentMsg where
  id : String
  channelId : String
  deriving DecidableEq

structure Payload where
  username : String
  avatarURL : Option String
  content : Option String
  files : List String
  hasReplyEmbed : Bool
  deriving DecidableEq

structure SendCall where
  channelId : String
  payload : Payload
  deriving DecidableEq

structure MessageLinkItem where
  messageId : String
  channelId : String
  deriving DecidableEq

structure MessageLinkRec where
  authorId : String
  messageId : String
  channelId : String
  links : List MessageLinkItem
  deriving DecidableEq

structure Member where
  displayName : String
  avatarURL : Option String
  deriving DecidableEq

structure Author where
  id : String
  displayName : String
  avatarURL : Option String
  bot : Bool
  deriving DecidableEq

structure Msg where
  id : String
  channelId : String
  author : Author
  member : Option Member
  webhookId : Option String
  content : String
  stickers : List String
  attachments : List String
  deriving DecidableEq

structure Env where
  channels : String → Option ChannelInfo
  webhookGet : String → Except Unit Unit
  trChannels : String → Option TrChannel
  chLinks : String → Option ChLink
  reply : String → Option Reply
  translator : String → String → String → Except Unit String
  send : String → Payload → Except Unit SentMsg
  msgWebhookOwner : Option String

/-- Model of JavaScript `String.prototype.trim`: strip whitespace from
both ends. -/
def jsTrim (s : String) : String :=
  String.mk (((s.data.dropWhile Char.isWhitespace).reverse.dropWhile Char.isWhitespace).reverse)

/-- The `translate` helper of the create path.  Returns the result
(`Except.error` a thrown provider failure, `Except.ok none` the
`undefined` of an empty body) together with the list of texts actually
passed to the translation collaborator. -/
def translate (tr : String → String → String → Except Unit String)
    (content : String) (sourceLang targetLang : String) :
    Except Unit (Option String) × List String :=
  if jsTrim content = "" then (Except.ok none, [])
  else
    let encoded := encode content
    match tr encoded.1 sourceLang targetLang with
    | Except.error _ => (Except.error (), [encoded.1])
    | Except.ok translated => (Except.ok (some (decode translated encoded.2)), [encoded.1])

/-- Model of JavaScript `big.includes(pat)`: `pat` occurs as a
contiguous subsequence of `big`. -/
def leadsWith : List Char → List Char → Bool
  | [], _ => true
  | _ :: _, [] => false
  | a :: as, b :: bs => a = b && leadsWith as bs

def containsSeq : List Char → List Char → Bool
  | pat, [] => leadsWith pat []
  | pat, c :: rest => leadsWith pat (c :: rest) || containsSeq pat rest

def strIncludes (s pat : String) : Bool := containsSeq pat.data s.data

/-- The `addReplyPing` helper, with JavaScript truthiness of the two
optional arguments made explicit (`undefined` and the empty string are
both falsy). -/
def addReplyPing (content authorId : Option String) : Option String :=
  match authorId with
  | none => content
  | some aid =>
    if aid = "" then content
    else
      match content with
      | none => some ("<@" ++ aid ++ ">")
      | some c =>
        if c = "" then some ("<@" ++ aid ++ ">")
        else if strIncludes c ("<@" ++ aid ++ ">") then some c
        else some (c ++ " " ++ "<@" ++ aid ++ ">")

def stickerURL (stickerId : String) : String :=
  "https://media.discordapp.net/stickers/" ++ stickerId ++ ".webp"

def msgUsername (msg : Msg) : String :=
  match msg.member with
  | some mem => mem.displayName
  | none => msg.author.displayName

def msgAvatarURL (msg : Msg) : Option String :=
  (match msg.member with
    | some mem => mem.avatarURL
    | none => none).orElse (fun _ => msg.author.avatarURL)

/-- The `replyAuthorId` computation of `translateChannel`: the
replied-to author's id when the reply exists and its author is not a
bot, `undefined` otherwise. -/
def replyAuthorIdOf (reply : Option Reply) : Option String :=
  match reply with
  | some r => if r.authorBot then none else some r.authorId
  | none => none

/-- A `webhook.send` call inside the `try` block: the attempt is
recorded; a thrown failure is caught, so the branch returns
`undefined`. -/
def sendVia (env : Env) (channelId : String) (payload : Payload) :
    List SendCall × Except Unit (Option SentMsg) :=
  match env.send channelId payload with
  | Except.error _ => ([⟨channelId, payload⟩], Except.ok none)
  | Except.ok m => ([⟨channelId, payload⟩], Except.ok (some m))

/-- One fan-out branch of the create path (`translateChannel`).  The
result is the list of attempted sends and the branch outcome:
`Except.error ()` is an uncaught rejection (only possible from the
`webhookCache.get` call, which is outside the `try` block),
`Except.ok none` a branch that ended without a sent message, and
`Except.ok (some m)` a successful relay. -/
def translateChannel (env : Env) (msg : Msg) (channelId : String)
    (sourceTrChannel : TrChannel) : List SendCall × Except Unit (Option SentMsg) :=
  match env.channels channelId with
  | none => ([], Except.ok none)
  | some channel =>
    if channel.isGuildText = false then ([], Except.ok none)
    else
      match env.webhookGet channelId with
      | Except.error _ => ([], Except.error ())
      | Except.ok _ =>
        match env.trChannels channelId with
        | none => ([], Except.ok none)
        | some targetTrChannel =>
          let reply := env.reply channelId
          let replyAuthorId := replyAuthorIdOf reply
          match msg.stickers.head? with
          | some stickerId =>
            sendVia env channelId
              ⟨msgUsername msg, msgAvatarURL msg,
                addReplyPing (some (stickerURL stickerId)) replyAuthorId, [], reply.isSome⟩
          | none =>
            match (translate env.translator msg.content sourceTrChannel.sourceLang
                targetTrChannel.targetLang).1 with
            | Except.error _ => ([], Except.ok none)
            | Except.ok translatedContent =>
              sendVia env channelId
                ⟨msgUsername msg, msgAvatarURL msg,
                  addReplyPing translatedContent replyAuthorId,
                  msg.attachments, reply.isSome⟩

def isErr {α : Type} : Except Unit α → Bool
  | Except.error _ => true
  | Except.ok _ => false

/-- The body of `execute` after the self-relay filter: resolve source
config and topology, fan out, and on a fulfilled `Promise.all` build
and save the message link (copies first, then the origin pair).  A
rejected branch rejects the `Promise.all`, so nothing is saved, while
the sends of the other branches have still been attempted. -/
def executeCore (env : Env) (msg : Msg) : List SendCall × Option MessageLinkRec :=
  match env.trChannels msg.channelId, env.chLinks msg.channelId with
  | some sourceTrChannel, some link =>
    let results := link.links.map (fun channelId =>
      translateChannel env msg channelId sourceTrChannel)
    let sendLog := (results.map (fun r => r.1)).flatten
    if results.any (fun r => isErr r.2) then (sendLog, none)
    else
      let messagesIds := (results.filterMap (fun r =>
          match r.2 with
          | Except.ok m => m
          | Except.error _ => none)).map (fun m => MessageLinkItem.mk m.id m.channelId)
        ++ [MessageLinkItem.mk msg.id msg.channelId]
      (sendLog, some ⟨msg.author.id, msg.id, msg.channelId, messagesIds⟩)
  | _, _ => ([], none)

/-- The `execute` handler of the message-create event. -/
def execute (env : Env) (clientUserId : String) (msg : Msg) :
    List SendCall × Option MessageLinkRec :=
  if msg.author.id ≠ clientUserId ∧ msg.webhookId.isSome
      ∧ env.msgWebhookOwner = some clientUserId
  then ([], none)
  else executeCore env msg

/-- The element-match query of `buildReplyEmbed`:
`MessageLink.findOne({links: {$elemMatch: {messageId, channelId}}})`. -/
def findMessageLink (records : List MessageLinkRec) (messageId channelId : String) :
    Option MessageLinkRec :=
  records.find? (fun r =>
    r.links.any (fun l => l.messageId == messageId && l.channelId == channelId))

/-- Concrete environment for the C1 witness: origin channel `o` linked
to targets `a` and `b`; the translator rejects exactly target language
`LB` (configured on `b`); sends into `a` succeed. -/
def envC1 : Env := Env.mk
  (fun _ => some (ChannelInfo.mk true))
  (fun _ => Except.ok ())
  (fun c => if c = "o" then some (TrChannel.mk "EN" "XX")
    else if c = "a" then some (TrChannel.mk "EN" "LA") else some (TrChannel.mk "EN" "LB"))
  (fun c => if c = "o" then some (ChLink.mk ["a", "b"]) else none)
  (fun _ => none)
  (fun _ _ l => if l = "LB" then Except.error () else Except.ok "done")
  (fun c _ => if c = "a" then Except.ok (SentMsg.mk "wa" "a") else Except.error ())
  none

def msgC1 : Msg := Msg.mk "m1" "o" (Author.mk "u1" "User" none false) none none "hi" [] []

def envC7 : Env := Env.mk
  (fun _ => some (ChannelInfo.mk true))
  (fun _ => Except.ok ())
  (fun _ => some (TrChannel.mk "EN" "IT"))
  (fun _ => none)
  (fun _ => some (Reply.mk false "u9"))
  (fun _ _ _ => Except.ok "hello")
  (fun _ _ => Except.error ())
  none

def msgC7 : Msg := Msg.mk "m1" "o" (Author.mk "u1" "U" none false) none none "x" [] []

def msgC7s : Msg := Msg.mk "m1" "o" (Author.mk "u1" "U" none false) none none "" ["77"] []

def envC3 : Env := Env.mk
  (fun _ => some (ChannelInfo.mk true))
  (fun c => if c = "b" then Except.error () else Except.ok ())
  (fun _ => some (TrChannel.mk "EN" "IT"))
  (fun c => if c = "o" then some (ChLink.mk ["a", "b"]) else none)
  (fun _ => none)
  (fun _ _ _ => Except.ok "t")
  (fun _ _ => Except.ok (SentMsg.mk "wa" "a"))
  none

def msgC3 : Msg := Msg.mk "m1" "o" (Author.mk "u1" "U" none false) none none "" ["s1"] []

def envC3b : Env := Env.mk
  (fun _ => some (ChannelInfo.mk true))
  (fun c => if c = "b" then Except.error () else Except.ok ())
  (fun _ => some (TrChannel.mk "EN" "IT"))
  (fun c => if c = "o" then some (ChLink.mk []) else none)
  (fun _ => none)
  (fun _ _ _ => Except.ok "t")
  (fun _ _ => Except.error ())
  none

def msgC3b : Msg := Msg.mk "m1" "o" (Author.mk "u1" "U" none false) none none "hi" [] []

/-! ## The edit-path orchestration

Shallow embedding of `src/events/messageUpdateTranslate.ts`.  The
message-link store is passed explicitly as a list of records; the only
store operation the source performs is the read
`MessageLink.findOne({messageId})`.  The result of `executeUpdate` is
the list of attempted `webhook.editMessage` calls together with the
store after the event. -/

structure FetchedMsg where
  id : String
  channelId : String
  webhookId : Option String
  isGuildText : Bool
  deriving DecidableEq

structure EditCall where
  channelId : String
  messageId : String
  content : Option String
  deriving DecidableEq

structure UpdMsg where
  id : String
  channelId : String
  guildId : String
  inGuild : Bool
  authorBot : Bool
  channelIsGuildText : Bool
  content : String
  deriving DecidableEq

structure UpdEnv where
  trChannels : String → Option TrChannel
  translator : String → String → String → Except Unit String
  webhookGet : String → Except Unit Unit
  fetchMessage : String → String → Option FetchedMsg

/-- Modelled from the spec: the helper `getMessagesFromMessageLink`
(`src/utils/events/getMessagesFromMessageLink.ts`) is not among the
provided sources.  Per the edit path of the specification, the
orchestrator gets "other channels' linked messages": for each entry of
the link record other than the edited origin message, it fetches that
channel's rendered message. -/
def getMessagesFromMessageLink (env : UpdEnv) (link : MessageLinkRec) (editedId : String) :
    List (Option FetchedMsg) :=
  (link.links.filter (fun l => !(l.messageId == editedId))).map
    (fun l => env.fetchMessage l.channelId l.messageId)

/-- Modelled from the spec: `translateContent` is imported by the edit
path from the create-path module but is not among the provided
sources.  Per the edit path of the specification the orchestrator
re-runs "the translate sub-procedure (step 3d above) on the new
content"; the guild id argument takes no part in the translation
described there. -/
def translateContent (tr : String → String → String → Except Unit String)
    (content guildId sourceLang targetLang : String) : Except Unit (Option String) :=
  (translate tr content sourceLang targetLang).1

/-- The `execute` handler of the message-update event. -/
def executeUpdate (env : UpdEnv) (store : List MessageLinkRec) (msg : UpdMsg) :
    List EditCall × List MessageLinkRec :=
  if msg.authorBot then ([], store)
  else if msg.inGuild = false then ([], store)
  else if msg.channelIsGuildText = false then ([], store)
  else if msg.content = "" then ([], store)
  else
    match store.find? (fun r => r.messageId == msg.id) with
    | none => ([], store)
    | some link =>
      match env.trChannels msg.channelId with
      | none => ([], store)
      | some sourceTrChannel =>
        let messages := getMessagesFromMessageLink env link msg.id
        let edits := messages.filterMap (fun om =>
          match om with
          | none => none
          | some m =>
            if m.webhookId.isNone then none
            else if m.isGuildText = false then none
            else
              match env.trChannels m.channelId with
              | none => none
              | some targetTrChannel =>
                match translateContent env.translator msg.content msg.guildId
                    sourceTrChannel.sourceLang targetTrChannel.targetLang with
                | Except.error _ => none
                | Except.ok translatedContent =>
                  match env.webhookGet m.channelId with
                  | Except.error _ => none
                  | Except.ok _ => some (EditCall.mk m.channelId m.id translatedContent))
        (edits, store)

def envC4 : UpdEnv := UpdEnv.mk
  (fun c => if c = "o" then some (TrChannel.mk "EN" "XX") else some (TrChannel.mk "EN" "IT"))
  (fun _ _ _ => Except.ok "T")
  (fun _ => Except.ok ())
  (fun c m => some (FetchedMsg.mk m c (some "w") true))

def recC4 : MessageLinkRec :=
  MessageLinkRec.mk "u1" "m1" "o" [MessageLinkItem.mk "c1" "t1", MessageLinkItem.mk "m1" "o"]

def msgC4 : UpdMsg := UpdMsg.mk "m1" "o" "g" true false true "hi"

end Relay

theorem matchAt_nil : matchAt [] = none := rfl

theorem matchAt_single (c : Char) : matchAt [c] = none := rfl

theorem dropWhile_append_of_all {p : Char → Bool} {l r : List Char}
    (h : ∀ c ∈ l, p c = true) : (l ++ r).dropWhile p = r.dropWhile p := by
  induction l with
  | nil => rfl
  | cons a l ih =>
    simp only [List.cons_append, List.dropWhile_cons, h a (by simp)]
    exact ih (fun c hc => h c (by simp [hc]))

theorem takeWhile_append_of_all {p : Char → Bool} {l r : List Char}
    (h : ∀ c ∈ l, p c = true) : (l ++ r).takeWhile p = l ++ r.takeWhile p := by
  induction l with
  | nil => rfl
  | cons a l ih =>
    simp only [List.cons_append, List.takeWhile_cons, h a (by simp)]
    exact congrArg (a :: ·) (ih (fun c hc => h c (by simp [hc])))

/-- Successful match of the pattern at a position: the token is
`<`, a marker, a body of digits/colons, `>`; the input splits as the
token followed by the remainder. -/
theorem matchAt_eq_some {s tok tail : List Char} (h : matchAt s = some (tok, tail)) :
    ∃ m body, (m = ':' ∨ m = '@') ∧ (∀ c ∈ body, isBody c = true) ∧
      tok = '<' :: m :: body ++ ['>'] ∧ s = tok ++ tail := by
  match s with
  | [] => simp [matchAt] at h
  | [c] => simp [matchAt] at h
  | c :: m :: rest =>
    simp only [matchAt] at h
    split at h
    · split at h
      · refine ⟨m, rest.takeWhile isBody, by assumption, fun c hc => List.mem_takeWhile_imp hc, ?_, ?_⟩
        · unfold matchBody at h
          split at h
          · split at h
            · cases h; rfl
            · exact absurd h (by simp)
          · exact absurd h (by simp)
        · unfold matchBody at h
          split at h
          next g tl hdrop =>
            split at h
            next hg =>
              cases h
              subst hg
              have hsplit : rest.takeWhile isBody ++ rest.dropWhile isBody = rest :=
                List.takeWhile_append_dropWhile isBody rest
              subst_eqs
              simp only [List.cons_append, List.cons.injEq, true_and]
              rw [List.append_assoc, List.singleton_append, ← hdrop, hsplit]
            · exact absurd h (by simp)
          · exact absurd h (by simp)
      · exact absurd h (by simp)
    · exact absurd h (by simp)

/-- The match at a position, when the pattern-shaped structure is
present and the body is maximal (guaranteed here because `>` is not a
body character), succeeds with exactly that token. -/
theorem matchAt_of_shape {m : Char} {body rest : List Char}
    (hm : m = ':' ∨ m = '@') (hb : ∀ c ∈ body, isBody c = true) :
    matchAt ('<' :: m :: (body ++ '>' :: rest)) = some ('<' :: m :: body ++ ['>'], rest) := by
  have hgt : isBody '>' = false := by decide
  simp only [matchAt, matchBody]
  rw [dropWhile_append_of_all hb, takeWhile_append_of_all hb]
  simp [hm, hgt, List.dropWhile_cons, List.takeWhile_cons]

/-- Every matched token, scanned on its own, matches the pattern in
full. -/
theorem matchAt_self {s tok tail : List Char} (h : matchAt s = some (tok, tail)) :
    matchAt tok = some (tok, []) := by
  obtain ⟨m, body, hm, hb, htok, _⟩ := matchAt_eq_some h
  subst htok
  have := @matchAt_of_shape m body [] hm hb
  simpa using this

theorem matchAt_some_length {s tok tail : List Char} (h : matchAt s = some (tok, tail)) :
    tail.length + 3 ≤ s.length := by
  obtain ⟨m, body, _, _, htok, hs⟩ := matchAt_eq_some h
  subst hs; subst htok
  simp [List.length_append]

theorem matchAt_none_of_ne_lt {c : Char} (hc : c ≠ '<') (x : List Char) :
    matchAt (c :: x) = none := by
  match x with
  | [] => rfl
  | m :: rest => simp [matchAt, hc]

theorem matchAt_none_of_marker {c m : Char} (hm : ¬(m = ':' ∨ m = '@')) (x : List Char) :
    matchAt (c :: m :: x) = none := by
  simp only [matchAt]
  split <;> simp [hm]

theorem natCharsF_fuel {f g n : Nat} (hf : n < f) (hg : n < g) :
    natCharsF f n = natCharsF g n := by
  induction f generalizing g n with
  | zero => omega
  | succ f ih =>
    match g with
    | 0 => omega
    | g + 1 =>
      simp only [natCharsF]
      split
      · rfl
      · exact congrArg (· ++ [digitChar (n % 10)]) (ih (by omega) (by omega))

theorem natChars_eq (n : Nat) :
    natChars n = if n < 10 then [digitChar n] else natChars (n / 10) ++ [digitChar (n % 10)] := by
  conv_lhs => rw [natChars, natCharsF]
  by_cases h : n < 10
  · simp [h]
  · simp only [if_neg h]
    exact congrArg (· ++ [digitChar (n % 10)]) (natCharsF_fuel (by omega) (by omega))

theorem digitChar_isDigit (d : Nat) : (digitChar d).isDigit = true := by
  unfold digitChar
  split_ifs <;> decide

theorem digitVal_digitChar {d : Nat} (h : d < 10) : digitVal (digitChar d) = d := by
  interval_cases d <;> decide

theorem foldl_natChars (n : Nat) : ∀ a : Nat,
    (natChars n).foldl (fun a c => a * 10 + digitVal c) a = a * 10 ^ (natChars n).length + n := by
  induction n using Nat.strong_induction_on with
  | _ n ih =>
    intro a
    rw [natChars_eq n]
    split
    next h =>
      simp [digitVal_digitChar h, pow_one]
    next h =>
      rw [List.foldl_append, List.foldl_cons, List.foldl_nil, ih (n / 10) (by omega),
        digitVal_digitChar (Nat.mod_lt _ (by omega)), List.length_append, List.length_cons,
        List.length_nil, Nat.zero_add, pow_succ, ← mul_assoc]
      generalize a * 10 ^ (natChars (n / 10)).length = x
      omega

theorem parseNat_natChars (n : Nat) : parseNat (natChars n) = n := by
  simp [parseNat, foldl_natChars n 0]

theorem natChars_inj {m n : Nat} (h : natChars m = natChars n) : m = n := by
  have := congrArg parseNat h
  rwa [parseNat_natChars, parseNat_natChars] at this

theorem natChars_all_isBody (n : Nat) : ∀ c ∈ natChars n, isBody c = true := by
  induction n using Nat.strong_induction_on with
  | _ n ih =>
    intro c hc
    rw [natChars_eq n] at hc
    split at hc
    · simp at hc
      subst hc
      simp [isBody, digitChar_isDigit]
    · rw [List.mem_append] at hc
      rcases hc with hc | hc
      · exact ih (n / 10) (by omega) c hc
      · simp at hc
        subst hc
        simp [isBody, digitChar_isDigit]

theorem tagKey_inj {m n : Nat} (h : tagKey m = tagKey n) : m = n := by
  simp only [tagKey, List.cons.injEq, true_and] at h
  exact natChars_inj (List.append_cancel_right h)

/-- A placeholder placed in front of any remainder is matched by the
scanner exactly as itself. -/
theorem matchAt_tagKey (n : Nat) (rest : List Char) :
    matchAt (tagKey n ++ rest) = some (tagKey n, rest) := by
  have := @matchAt_of_shape ':' (natChars n) rest (Or.inl rfl) (natChars_all_isBody n)
  simpa [tagKey] using this

theorem tget_tset_self (t : TagTable) (k v : List Char) : tget (tset t k v) k = some v := by
  induction t with
  | nil => simp [tset, tget]
  | cons p t ih =>
    obtain ⟨a, b⟩ := p
    by_cases h : a = k
    · simp [tset, tget, h]
    · simp [tset, tget, h, ih]

theorem tget_tset_other (t : TagTable) {k k' : List Char} (v : List Char) (h : k ≠ k') :
    tget (tset t k v) k' = tget t k' := by
  induction t with
  | nil => simp [tset, tget, h]
  | cons p t ih =>
    obtain ⟨a, b⟩ := p
    simp only [tset]
    by_cases ha : a = k
    · subst ha
      simp [tget, h]
    · simp only [if_neg ha, tget, ih]

theorem tset_fresh (t : TagTable) {k : List Char} (v : List Char) (h : tget t k = none) :
    tset t k v = t ++ [(k, v)] := by
  induction t with
  | nil => rfl
  | cons p t ih =>
    obtain ⟨a, b⟩ := p
    simp only [tget] at h
    by_cases ha : a = k
    · simp [ha] at h
    · simp only [tset, if_neg ha, List.cons_append, List.cons.injEq, true_and]
      exact ih (by simpa [ha] using h)

theorem encodeF_fuel {f g : Nat} {s : List Char} {counter : Nat} {t : TagTable}
    (hf : s.length ≤ f) (hg : s.length ≤ g) : encodeF f s counter t = encodeF g s counter t := by
  induction f generalizing g s counter t with
  | zero =>
    have : s = [] := List.length_eq_zero.mp (by omega)
    subst this
    cases g <;> rfl
  | succ f ih =>
    match s with
    | [] => cases g <;> rfl
    | c :: cs =>
      match g with
      | 0 => simp at hg
      | g + 1 =>
        have hcf : cs.length ≤ f := by simp only [List.length_cons] at hf; omega
        have hcg : cs.length ≤ g := by simp only [List.length_cons] at hg; omega
        simp only [encodeF]
        cases hm : matchAt (c :: cs) with
        | some p =>
          obtain ⟨tok, tail⟩ := p
          have hlen := matchAt_some_length hm
          simp only [List.length_cons] at hlen
          have h1 : tail.length ≤ f := by omega
          have h2 : tail.length ≤ g := by omega
          dsimp only
          rw [@ih g tail (counter + 1) (tset t (tagKey counter) tok) h1 h2]
        | none =>
          dsimp only
          rw [@ih g cs counter t hcf hcg]

theorem encodeAux_nil (counter : Nat) (t : TagTable) : encodeAux [] counter t = ([], t) := rfl

theorem encodeAux_cons_match {c : Char} {cs tok tail : List Char} (counter : Nat) (t : TagTable)
    (hm : matchAt (c :: cs) = some (tok, tail)) :
    encodeAux (c :: cs) counter t =
      ((tagKey counter ++ (encodeAux tail (counter + 1) (tset t (tagKey counter) tok)).1),
        (encodeAux tail (counter + 1) (tset t (tagKey counter) tok)).2) := by
  have hlen := matchAt_some_length hm
  simp only [List.length_cons] at hlen
  simp only [encodeAux, List.length_cons, encodeF, hm]
  rw [@encodeF_fuel cs.length tail.length tail (counter + 1) (tset t (tagKey counter) tok)
    (by omega) (le_refl _)]

theorem encodeAux_cons_none {c : Char} {cs : List Char} (counter : Nat) (t : TagTable)
    (hm : matchAt (c :: cs) = none) :
    encodeAux (c :: cs) counter t =
      (c :: (encodeAux cs counter t).1, (encodeAux cs counter t).2) := by
  simp only [encodeAux, List.length_cons, encodeF, hm]

theorem decodeF_fuel {f g : Nat} {s : List Char} {t : TagTable}
    (hf : s.length ≤ f) (hg : s.length ≤ g) : decodeF f s t = decodeF g s t := by
  induction f generalizing g s t with
  | zero =>
    have : s = [] := List.length_eq_zero.mp (by omega)
    subst this
    cases g <;> rfl
  | succ f ih =>
    match s with
    | [] => cases g <;> rfl
    | c :: cs =>
      match g with
      | 0 => simp at hg
      | g + 1 =>
        have hcf : cs.length ≤ f := by simp only [List.length_cons] at hf; omega
        have hcg : cs.length ≤ g := by simp only [List.length_cons] at hg; omega
        simp only [decodeF]
        cases hm : matchAt (c :: cs) with
        | some p =>
          obtain ⟨tok, tail⟩ := p
          have hlen := matchAt_some_length hm
          simp only [List.length_cons] at hlen
          have h1 : tail.length ≤ f := by omega
          have h2 : tail.length ≤ g := by omega
          dsimp only
          rw [@ih g tail t h1 h2]
        | none =>
          dsimp only
          rw [@ih g cs t hcf hcg]

theorem decodeAux_nil (t : TagTable) : decodeAux [] t = [] := rfl

theorem decodeAux_cons_match {c : Char} {cs tok tail : List Char} (t : TagTable)
    (hm : matchAt (c :: cs) = some (tok, tail)) :
    decodeAux (c :: cs) t = (tget t tok).getD [] ++ decodeAux tail t := by
  have hlen := matchAt_some_length hm
  simp only [List.length_cons] at hlen
  simp only [decodeAux, List.length_cons, decodeF, hm]
  rw [@decodeF_fuel cs.length tail.length tail t (by omega) (le_refl _)]

theorem decodeAux_cons_none {c : Char} {cs : List Char} (t : TagTable)
    (hm : matchAt (c :: cs) = none) :
    decodeAux (c :: cs) t = c :: decodeAux cs t := by
  simp only [decodeAux, List.length_cons, decodeF, hm]

theorem gtAfterBody_cons_body {c : Char} (h : isBody c = true) (x : List Char) :
    gtAfterBody (c :: x) = gtAfterBody x := by
  simp [gtAfterBody, List.dropWhile_cons, h]

theorem gtAfterBody_cons_not_body {c : Char} (h : isBody c = false) (x : List Char) :
    gtAfterBody (c :: x) = (c == '>') := by
  simp [gtAfterBody, List.dropWhile_cons, h]

theorem matchBody_eq_none_iff (m : Char) (x : List Char) :
    matchBody m x = none ↔ gtAfterBody x = false := by
  unfold matchBody gtAfterBody
  cases hd : x.dropWhile isBody with
  | nil => simp
  | cons g tail => by_cases hg : g = '>' <;> simp [hg]

theorem matchAt_cons_cons (m : Char) (x : List Char) (hmk : m = ':' ∨ m = '@') :
    matchAt ('<' :: m :: x) = matchBody m x := by
  simp [matchAt, hmk]

theorem encodeAux_head_bound : ∀ n (s : List Char), s.length ≤ n → ∀ counter t,
    (encodeAux s counter t).1.head? = s.head? := by
  intro n
  induction n with
  | zero =>
    intro s hs counter t
    have : s = [] := List.length_eq_zero.mp (by omega)
    subst this
    rfl
  | succ n ih =>
    intro s hs counter t
    match s with
    | [] => rfl
    | c :: cs =>
      cases hm : matchAt (c :: cs) with
      | some p =>
        obtain ⟨tok, tail⟩ := p
        rw [encodeAux_cons_match counter t hm]
        obtain ⟨m, body, _, _, htok, hs2⟩ := matchAt_eq_some hm
        subst htok
        simp only [List.cons_append] at hs2
        obtain ⟨hc, -⟩ := List.cons.inj hs2
        subst hc
        simp [tagKey]
      | none =>
        rw [encodeAux_cons_none counter t hm]
        simp

theorem encodeAux_head (s : List Char) (counter : Nat) (t : TagTable) :
    (encodeAux s counter t).1.head? = s.head? :=
  encodeAux_head_bound s.length s (le_refl _) counter t

theorem encodeAux_gtAfterBody_bound : ∀ n (s : List Char), s.length ≤ n → ∀ counter t,
    gtAfterBody (encodeAux s counter t).1 = gtAfterBody s := by
  intro n
  induction n with
  | zero =>
    intro s hs counter t
    have : s = [] := List.length_eq_zero.mp (by omega)
    subst this
    rfl
  | succ n ih =>
    intro s hs counter t
    match s with
    | [] => rfl
    | c :: cs =>
      simp only [List.length_cons] at hs
      cases hm : matchAt (c :: cs) with
      | some p =>
        obtain ⟨tok, tail⟩ := p
        rw [encodeAux_cons_match counter t hm]
        dsimp only
        have hlt : isBody '<' = false := by decide
        have hL : gtAfterBody (tagKey counter
            ++ (encodeAux tail (counter + 1) (tset t (tagKey counter) tok)).1) = false := by
          rw [show tagKey counter ++ (encodeAux tail (counter + 1) (tset t (tagKey counter) tok)).1
              = '<' :: (':' :: (natChars counter ++ ['>'])
                ++ (encodeAux tail (counter + 1) (tset t (tagKey counter) tok)).1) from by
            simp [tagKey]]
          rw [gtAfterBody_cons_not_body hlt]
          decide
        rw [hL]
        obtain ⟨m, body, _, _, htok, hs2⟩ := matchAt_eq_some hm
        subst htok
        simp only [List.cons_append] at hs2
        obtain ⟨hc, -⟩ := List.cons.inj hs2
        subst hc
        rw [gtAfterBody_cons_not_body hlt]
        decide
      | none =>
        rw [encodeAux_cons_none counter t hm]
        by_cases hc : isBody c
        · rw [gtAfterBody_cons_body hc, gtAfterBody_cons_body hc]
          exact ih cs (by omega) counter t
        · rw [gtAfterBody_cons_not_body (by simpa using hc),
            gtAfterBody_cons_not_body (by simpa using hc)]

theorem encodeAux_gtAfterBody (s : List Char) (counter : Nat) (t : TagTable) :
    gtAfterBody (encodeAux s counter t).1 = gtAfterBody s :=
  encodeAux_gtAfterBody_bound s.length s (le_refl _) counter t

/-- A literal character kept by the encoder still fails to start a
match when prefixed to the encoding of the rest of the input. -/
theorem matchAt_none_encodeAux {c : Char} {cs : List Char} (counter : Nat) (t : TagTable)
    (hm : matchAt (c :: cs) = none) :
    matchAt (c :: (encodeAux cs counter t).1) = none := by
  by_cases hc : c = '<'
  · subst hc
    cases cs with
    | nil => rfl
    | cons m cs2 =>
      by_cases hmk : m = ':' ∨ m = '@'
      · have hmne : m ≠ '<' := by rcases hmk with h | h <;> subst h <;> decide
        have hm2 : matchAt (m :: cs2) = none := matchAt_none_of_ne_lt hmne cs2
        rw [encodeAux_cons_none counter t hm2]
        rw [matchAt_cons_cons m cs2 hmk] at hm
        rw [matchAt_cons_cons m (encodeAux cs2 counter t).1 hmk]
        rw [matchBody_eq_none_iff] at hm ⊢
        rw [encodeAux_gtAfterBody]
        exact hm
      · have hh := encodeAux_head (m :: cs2) counter t
        cases henc : (encodeAux (m :: cs2) counter t).1 with
        | nil => rw [henc] at hh; simp at hh
        | cons a e2 =>
          rw [henc] at hh
          simp only [List.head?_cons, Option.some.injEq] at hh
          rw [hh]
          exact matchAt_none_of_marker hmk e2
  · exact matchAt_none_of_ne_lt hc _

/-! ## Lookup preservation through the encoder -/

theorem tget_encodeAux_bound : ∀ n (s : List Char), s.length ≤ n → ∀ counter t k,
    (∀ m, counter ≤ m → tagKey m ≠ k) →
    tget (encodeAux s counter t).2 k = tget t k := by
  intro n
  induction n with
  | zero =>
    intro s hs counter t k _
    have : s = [] := List.length_eq_zero.mp (by omega)
    subst this
    rfl
  | succ n ih =>
    intro s hs counter t k hk
    match s with
    | [] => rfl
    | c :: cs =>
      simp only [List.length_cons] at hs
      cases hm : matchAt (c :: cs) with
      | some p =>
        obtain ⟨tok, tail⟩ := p
        rw [encodeAux_cons_match counter t hm]
        have hlen := matchAt_some_length hm
        simp only [List.length_cons] at hlen
        rw [ih tail (by omega) (counter + 1) (tset t (tagKey counter) tok) k
          (fun m hmm => hk m (by omega))]
        exact tget_tset_other t tok (hk counter (le_refl _))
      | none =>
        rw [encodeAux_cons_none counter t hm]
        exact ih cs (by omega) counter t k hk

theorem decodeAux_match {s tok tail : List Char} (t : TagTable)
    (hm : matchAt s = some (tok, tail)) :
    decodeAux s t = (tget t tok).getD [] ++ decodeAux tail t := by
  match s with
  | [] => rw [matchAt_nil] at hm; cases hm
  | c :: cs => exact decodeAux_cons_match t hm

/-! ## The round-trip law -/

theorem decode_encodeAux_bound : ∀ n (s : List Char), s.length ≤ n → ∀ counter t,
    decodeAux (encodeAux s counter t).1 (encodeAux s counter t).2 = s := by
  intro n
  induction n with
  | zero =>
    intro s hs counter t
    have : s = [] := List.length_eq_zero.mp (by omega)
    subst this
    rfl
  | succ n ih =>
    intro s hs counter t
    match s with
    | [] => rfl
    | c :: cs =>
      simp only [List.length_cons] at hs
      cases hm : matchAt (c :: cs) with
      | some p =>
        obtain ⟨tok, tail⟩ := p
        have hlen := matchAt_some_length hm
        simp only [List.length_cons] at hlen
        rw [encodeAux_cons_match counter t hm]
        dsimp only
        rw [decodeAux_match _ (matchAt_tagKey counter _)]
        have hget : tget (encodeAux tail (counter + 1) (tset t (tagKey counter) tok)).2
            (tagKey counter) = some tok := by
          rw [tget_encodeAux_bound tail.length tail (le_refl _) (counter + 1)
            (tset t (tagKey counter) tok) (tagKey counter)
            (fun m hmm heq => absurd (tagKey_inj heq) (by omega))]
          exact tget_tset_self t (tagKey counter) tok
        rw [hget]
        simp only [Option.getD_some]
        rw [ih tail (by omega) (counter + 1) (tset t (tagKey counter) tok)]
        obtain ⟨m, body, _, _, htok, hs2⟩ := matchAt_eq_some hm
        exact hs2.symm
      | none =>
        rw [encodeAux_cons_none counter t hm]
        rw [decodeAux_cons_none _ (matchAt_none_encodeAux counter t hm)]
        rw [ih cs (by omega) counter t]

theorem segmentsF_fuel {f g : Nat} {s : List Char}
    (hf : s.length ≤ f) (hg : s.length ≤ g) : segmentsF f s = segmentsF g s := by
  induction f generalizing g s with
  | zero =>
    have : s = [] := List.length_eq_zero.mp (by omega)
    subst this
    cases g <;> rfl
  | succ f ih =>
    match s with
    | [] => cases g <;> rfl
    | c :: cs =>
      match g with
      | 0 => simp at hg
      | g + 1 =>
        have hcf : cs.length ≤ f := by simp only [List.length_cons] at hf; omega
        have hcg : cs.length ≤ g := by simp only [List.length_cons] at hg; omega
        simp only [segmentsF]
        cases hm : matchAt (c :: cs) with
        | some p =>
          obtain ⟨tok, tail⟩ := p
          have hlen := matchAt_some_length hm
          simp only [List.length_cons] at hlen
          have h1 : tail.length ≤ f := by omega
          have h2 : tail.length ≤ g := by omega
          dsimp only
          rw [@ih g tail h1 h2]
        | none =>
          dsimp only
          rw [@ih g cs hcf hcg]

theorem segments_nil : segments [] = [] := rfl

theorem segments_cons_match {c : Char} {cs tok tail : List Char}
    (hm : matchAt (c :: cs) = some (tok, tail)) :
    segments (c :: cs) = (true, tok) :: segments tail := by
  have hlen := matchAt_some_length hm
  simp only [List.length_cons] at hlen
  simp only [segments, List.length_cons, segmentsF, hm]
  rw [@segmentsF_fuel cs.length tail.length tail (by omega) (le_refl _)]

theorem segments_cons_none {c : Char} {cs : List Char} (hm : matchAt (c :: cs) = none) :
    segments (c :: cs) = (false, [c]) :: segments cs := by
  simp only [segments, List.length_cons, segmentsF, hm]

theorem decodeAux_eq_render_bound : ∀ n (s : List Char), s.length ≤ n → ∀ t : TagTable,
    decodeAux s t = ((segments s).map (renderSeg t)).flatten := by
  intro n
  induction n with
  | zero =>
    intro s hs t
    have : s = [] := List.length_eq_zero.mp (by omega)
    subst this
    rfl
  | succ n ih =>
    intro s hs t
    match s with
    | [] => rfl
    | c :: cs =>
      simp only [List.length_cons] at hs
      cases hm : matchAt (c :: cs) with
      | some p =>
        obtain ⟨tok, tail⟩ := p
        have hlen := matchAt_some_length hm
        simp only [List.length_cons] at hlen
        rw [decodeAux_cons_match t hm, segments_cons_match hm, ih tail (by omega) t]
        simp [renderSeg]
      | none =>
        rw [decodeAux_cons_none t hm, segments_cons_none hm]
        simp only [List.map_cons, List.flatten_cons, renderSeg]
        rw [ih cs (by omega) t]
        rfl

theorem segments_flatten_bound : ∀ n (s : List Char), s.length ≤ n →
    ((segments s).map (·.2)).flatten = s := by
  intro n
  induction n with
  | zero =>
    intro s hs
    have : s = [] := List.length_eq_zero.mp (by omega)
    subst this
    rfl
  | succ n ih =>
    intro s hs
    match s with
    | [] => rfl
    | c :: cs =>
      simp only [List.length_cons] at hs
      cases hm : matchAt (c :: cs) with
      | some p =>
        obtain ⟨tok, tail⟩ := p
        have hlen := matchAt_some_length hm
        simp only [List.length_cons] at hlen
        rw [segments_cons_match hm]
        simp only [List.map_cons, List.flatten_cons]
        rw [ih tail (by omega)]
        obtain ⟨m, body, _, _, _, hs2⟩ := matchAt_eq_some hm
        exact hs2.symm
      | none =>
        rw [segments_cons_none hm]
        simp only [List.map_cons, List.flatten_cons]
        rw [ih cs (by omega)]
        rfl

theorem segments_true_match_bound : ∀ n (s : List Char), s.length ≤ n →
    ∀ p ∈ segments s, p.1 = true → matchAt p.2 = some (p.2, []) := by
  intro n
  induction n with
  | zero =>
    intro s hs p hp _
    have : s = [] := List.length_eq_zero.mp (by omega)
    subst this
    simp [segments_nil] at hp
  | succ n ih =>
    intro s hs p hp htrue
    match s with
    | [] => simp [segments_nil] at hp
    | c :: cs =>
      simp only [List.length_cons] at hs
      cases hm : matchAt (c :: cs) with
      | some q =>
        obtain ⟨tok, tail⟩ := q
        have hlen := matchAt_some_length hm
        simp only [List.length_cons] at hlen
        rw [segments_cons_match hm] at hp
        rcases List.mem_cons.mp hp with hp | hp
        · subst hp
          exact matchAt_self hm
        · exact ih tail (by omega) p hp htrue
      | none =>
        rw [segments_cons_none hm] at hp
        rcases List.mem_cons.mp hp with hp | hp
        · subst hp
          simp at htrue
        · exact ih cs (by omega) p hp htrue

theorem countMatches_nil : countMatches [] = 0 := rfl

theorem countMatches_cons_match {c : Char} {cs tok tail : List Char}
    (hm : matchAt (c :: cs) = some (tok, tail)) :
    countMatches (c :: cs) = countMatches tail + 1 := by
  simp [countMatches, segments_cons_match hm]

theorem countMatches_cons_none {c : Char} {cs : List Char} (hm : matchAt (c :: cs) = none) :
    countMatches (c :: cs) = countMatches cs := by
  simp [countMatches, segments_cons_none hm]

theorem tget_append (t l : TagTable) (k : List Char) :
    tget (t ++ l) k = match tget t k with | some v => some v | none => tget l k := by
  induction t with
  | nil => rfl
  | cons p t ih =>
    obtain ⟨a, b⟩ := p
    by_cases ha : a = k
    · simp [tget, ha]
    · simp [tget, ha, ih]

theorem encodeAux_keys_bound : ∀ n (s : List Char), s.length ≤ n → ∀ counter (t : TagTable),
    (∀ m, counter ≤ m → tget t (tagKey m) = none) →
    (encodeAux s counter t).2.map Prod.fst
      = t.map Prod.fst ++ (List.range' counter (countMatches s)).map tagKey := by
  intro n
  induction n with
  | zero =>
    intro s hs counter t _
    have : s = [] := List.length_eq_zero.mp (by omega)
    subst this
    simp [encodeAux_nil, countMatches_nil]
  | succ n ih =>
    intro s hs counter t hk
    match s with
    | [] => simp [encodeAux_nil, countMatches_nil]
    | c :: cs =>
      simp only [List.length_cons] at hs
      cases hm : matchAt (c :: cs) with
      | some p =>
        obtain ⟨tok, tail⟩ := p
        have hlen := matchAt_some_length hm
        simp only [List.length_cons] at hlen
        rw [encodeAux_cons_match counter t hm]
        dsimp only
        have hfresh : tget t (tagKey counter) = none := hk counter (le_refl _)
        have hset : tset t (tagKey counter) tok = t ++ [(tagKey counter, tok)] :=
          tset_fresh t tok hfresh
        have hk2 : ∀ m, counter + 1 ≤ m → tget (tset t (tagKey counter) tok) (tagKey m) = none := by
          intro m hmm
          rw [hset, tget_append, hk m (by omega)]
          simp only [tget]
          rw [if_neg (fun heq => absurd (tagKey_inj heq) (by omega))]
        rw [ih tail (by omega) (counter + 1) (tset t (tagKey counter) tok) hk2, hset,
          countMatches_cons_match hm, List.map_append, List.range'_succ]
        simp
      | none =>
        rw [encodeAux_cons_none counter t hm]
        dsimp only
        rw [ih cs (by omega) counter t hk, countMatches_cons_none hm]

/-! ## Claim theorems for the tag transcoder -/

/-- C2: for every string `s`, decoding the text produced by
`encode s` with the tag table produced by the same call yields `s`:
`decode (encode s).1 (encode s).2 = s`. -/
theorem decode_encode (s : String) : decode (encode s).1 (encode s).2 = s := by
  obtain ⟨data⟩ := s
  exact congrArg String.mk (decode_encodeAux_bound data.length data (le_refl _) 0 [])

/-- C6: `decode` is exactly the segment-wise rendering of the pattern
scan of its input: each matched token is replaced by its tag-table
binding when present and by the empty string when absent, and every
non-matching span passes through unchanged.  The segments concatenate
back to the input, and every segment flagged as a match is a full
pattern match. -/
theorem decode_segments (s : String) (t : TagTable) :
    decode s t = String.mk (((segments s.data).map (renderSeg t)).flatten)
    ∧ ((segments s.data).map (·.2)).flatten = s.data
    ∧ ∀ p ∈ segments s.data, p.1 = true → matchAt p.2 = some (p.2, []) :=
  ⟨congrArg String.mk (decodeAux_eq_render_bound s.data.length s.data (le_refl _) t),
    segments_flatten_bound s.data.length s.data (le_refl _),
    segments_true_match_bound s.data.length s.data (le_refl _)⟩

/-- Witness for C6 at a concrete input containing one protected token
and one literal span. -/
theorem decode_segments_witness :
    decode (String.mk ['a', '<', '@', '7', '>']) []
        = String.mk (((segments (String.mk ['a', '<', '@', '7', '>']).data).map (renderSeg [])).flatten)
      ∧ ((segments (String.mk ['a', '<', '@', '7', '>']).data).map (·.2)).flatten
        = (String.mk ['a', '<', '@', '7', '>']).data
      ∧ ∀ p ∈ segments (String.mk ['a', '<', '@', '7', '>']).data, p.1 = true →
        matchAt p.2 = some (p.2, []) :=
  decode_segments (String.mk ['a', '<', '@', '7', '>']) []

/-- C10: for an input with `k` pattern matches, the tag table produced
by `encode` has exactly `k` entries, whose keys are `<:0>`, …,
`<:k-1>` in match order; the keys are pairwise distinct and each key
itself matches the protected-token pattern. -/
theorem encode_table_keys (s : String) :
    (encode s).2.map Prod.fst = (List.range (countMatches s.data)).map tagKey
    ∧ (encode s).2.length = countMatches s.data
    ∧ ((encode s).2.map Prod.fst).Nodup
    ∧ ∀ k ∈ (encode s).2.map Prod.fst, matchAt k = some (k, []) := by
  have hkeys : (encode s).2.map Prod.fst = (List.range (countMatches s.data)).map tagKey := by
    have := encodeAux_keys_bound s.data.length s.data (le_refl _) 0 []
      (fun m _ => rfl)
    simpa [encode, List.range_eq_range'] using this
  refine ⟨hkeys, ?_, ?_, ?_⟩
  · have := congrArg List.length hkeys
    simpa using this
  · rw [hkeys]
    exact (List.nodup_range _).map (fun a b hab => tagKey_inj hab)
  · intro k hk
    rw [hkeys] at hk
    simp only [List.mem_map, List.mem_range] at hk
    obtain ⟨i, _, hi⟩ := hk
    subst hi
    have := matchAt_tagKey i []
    simpa using this

/-- Witness for C10 at a concrete input with two protected tokens. -/
theorem encode_table_keys_witness :
    (encode (String.mk ['<', '@', '1', '>', '<', '@', '2', '>'])).2.map Prod.fst
        = (List.range (countMatches (String.mk ['<', '@', '1', '>', '<', '@', '2', '>']).data)).map tagKey
      ∧ (encode (String.mk ['<', '@', '1', '>', '<', '@', '2', '>'])).2.length
        = countMatches (String.mk ['<', '@', '1', '>', '<', '@', '2', '>']).data
      ∧ ((encode (String.mk ['<', '@', '1', '>', '<', '@', '2', '>'])).2.map Prod.fst).Nodup
      ∧ ∀ k ∈ (encode (String.mk ['<', '@', '1', '>', '<', '@', '2', '>'])).2.map Prod.fst,
        matchAt k = some (k, []) :=
  encode_table_keys (String.mk ['<', '@', '1', '>', '<', '@', '2', '>'])

namespace Relay

/-! ## Claim theorems for the create path -/

/-- C8: for a message body that is empty or consists only of
whitespace, the translate helper returns no translated content and the
translation collaborator is never invoked: no text at all is passed to
it (in particular nothing is encoded for it). -/
theorem translate_empty_content (tr : String → String → String → Except Unit String)
    (content sourceLang targetLang : String) (h : jsTrim content = "") :
    translate tr content sourceLang targetLang = (Except.ok none, []) := by
  simp [translate, h]

/-- Witness for C8 at a whitespace-only body and a translator that
would fail if it were ever called. -/
theorem translate_empty_content_witness :
    jsTrim (String.mk [' ', ' ']) = ""
    ∧ translate (fun _ _ _ => Except.error ()) (String.mk [' ', ' ']) "EN" "IT"
      = (Except.ok none, []) :=
  ⟨by decide, translate_empty_content (fun _ _ _ => Except.error ())
    (String.mk [' ', ' ']) "EN" "IT" (by decide)⟩

/-- C5: a message whose origin channel has no translation config or no
topology entry makes the create path terminate silently: no webhook
send is attempted and no message-link record is persisted. -/
theorem execute_unconfigured_silent (env : Env) (clientUserId : String) (msg : Msg)
    (h : env.trChannels msg.channelId = none ∨ env.chLinks msg.channelId = none) :
    execute env clientUserId msg = ([], none) := by
  unfold execute
  split
  · rfl
  · rcases h with h | h
    · cases h2 : env.chLinks msg.channelId <;> simp [executeCore, h, h2]
    · cases h2 : env.trChannels msg.channelId <;> simp [executeCore, h, h2]

/-- Witness for C5: an environment with no configuration at all. -/
theorem execute_unconfigured_silent_witness :
    execute
      (Env.mk (fun _ => none) (fun _ => Except.ok ()) (fun _ => none) (fun _ => none)
        (fun _ => none) (fun _ _ _ => Except.error ()) (fun _ _ => Except.error ()) none)
      "client"
      (Msg.mk "m1" "origin" (Author.mk "u1" "User" none false) none none "hello" [] [])
      = ([], none) :=
  execute_unconfigured_silent _ "client" _ (Or.inl rfl)

/-- C9: every message-link record persisted by the create path carries
the origin pair `{messageId := msg.id, channelId := msg.channelId}` as
the final entry of its links list, after the successful copies, and
the element-match query used by the reply-preview lookup resolves the
origin pair to this record. -/
theorem messageLink_origin_last (env : Env) (clientUserId : String) (msg : Msg)
    (r : MessageLinkRec) (h : (execute env clientUserId msg).2 = some r) :
    r.links.getLast? = some (MessageLinkItem.mk msg.id msg.channelId)
    ∧ findMessageLink [r] msg.id msg.channelId = some r := by
  unfold execute at h
  split at h
  · cases h
  · unfold executeCore at h
    cases hsrc : env.trChannels msg.channelId with
    | none => simp [hsrc] at h
    | some srcTr =>
      cases hlink : env.chLinks msg.channelId with
      | none => simp [hsrc, hlink] at h
      | some link =>
        simp only [hsrc, hlink] at h
        split at h
        · cases h
        · simp only [Option.some.injEq] at h
          subst h
          constructor
          · exact List.getLast?_concat _
          · have hany : (((link.links.map (fun channelId =>
                translateChannel env msg channelId srcTr)).filterMap (fun r =>
                  match r.2 with
                  | Except.ok m => m
                  | Except.error _ => none)).map (fun m => MessageLinkItem.mk m.id m.channelId)
                ++ [MessageLinkItem.mk msg.id msg.channelId]).any
                (fun l => l.messageId == msg.id && l.channelId == msg.channelId) = true := by
              apply List.any_eq_true.mpr
              refine ⟨MessageLinkItem.mk msg.id msg.channelId, ?_, by simp⟩
              exact List.mem_append_right _ (by simp)
            unfold findMessageLink
            exact List.find?_cons_of_pos _ hany

/-- Witness for C9: a configured origin channel with an empty topology
produces the record whose only link entry is the origin pair. -/
theorem messageLink_origin_last_witness :
    (MessageLinkRec.mk "u1" "m1" "origin" [MessageLinkItem.mk "m1" "origin"]).links.getLast?
      = some (MessageLinkItem.mk "m1" "origin")
    ∧ findMessageLink [MessageLinkRec.mk "u1" "m1" "origin" [MessageLinkItem.mk "m1" "origin"]]
        "m1" "origin"
      = some (MessageLinkRec.mk "u1" "m1" "origin" [MessageLinkItem.mk "m1" "origin"]) :=
  messageLink_origin_last
    (Env.mk (fun _ => some (ChannelInfo.mk true)) (fun _ => Except.ok ())
      (fun _ => some (TrChannel.mk "EN" "IT")) (fun c => if c = "origin" then some (ChLink.mk []) else none)
      (fun _ => none) (fun _ _ _ => Except.error ()) (fun _ _ => Except.error ()) none)
    "client"
    (Msg.mk "m1" "origin" (Author.mk "u1" "User" none false) none none "hello" [] [])
    (MessageLinkRec.mk "u1" "m1" "origin" [MessageLinkItem.mk "m1" "origin"])
    (by decide)

theorem translate_ok {tr : String → String → String → Except Unit String}
    {content sourceLang targetLang out : String}
    (hcontent : jsTrim content ≠ "")
    (htr : tr (encode content).1 sourceLang targetLang = Except.ok out) :
    translate tr content sourceLang targetLang
      = (Except.ok (some (decode out (encode content).2)), [(encode content).1]) := by
  unfold translate
  rw [if_neg hcontent]
  dsimp only
  rw [htr]

theorem translate_err {tr : String → String → String → Except Unit String}
    {content sourceLang targetLang : String}
    (hcontent : jsTrim content ≠ "")
    (htr : tr (encode content).1 sourceLang targetLang = Except.error ()) :
    translate tr content sourceLang targetLang = (Except.error (), [(encode content).1]) := by
  unfold translate
  rw [if_neg hcontent]
  dsimp only
  rw [htr]

/-- C1: relaying to two linked targets `a` and `b` where the translate
call fails exactly for `b`: the send to `a` still happens (and is the
only send), and the persisted record's links list consists of the one
successful copy followed by the origin pair — its copies part
(`dropLast`) has length one and no entry mentions the failed target. -/
theorem execute_partial_translate_failure
    (env : Env) (clientUserId : String) (msg : Msg) (a b : String)
    (srcTr tgtA tgtB : TrChannel) (mA : SentMsg) (outA : String)
    (hwebhook : msg.webhookId = none)
    (hsticker : msg.stickers = [])
    (hcontent : jsTrim msg.content ≠ "")
    (hsrc : env.trChannels msg.channelId = some srcTr)
    (hlink : env.chLinks msg.channelId = some (ChLink.mk [a, b]))
    (hchA : env.channels a = some (ChannelInfo.mk true))
    (hchB : env.channels b = some (ChannelInfo.mk true))
    (hwhA : env.webhookGet a = Except.ok ())
    (hwhB : env.webhookGet b = Except.ok ())
    (htgtA : env.trChannels a = some tgtA)
    (htgtB : env.trChannels b = some tgtB)
    (htrA : env.translator (encode msg.content).1 srcTr.sourceLang tgtA.targetLang
      = Except.ok outA)
    (htrB : env.translator (encode msg.content).1 srcTr.sourceLang tgtB.targetLang
      = Except.error ())
    (hsendA : ∀ p, env.send a p = Except.ok mA)
    (hmA : mA.channelId = a)
    (hba : b ≠ a)
    (hbo : b ≠ msg.channelId) :
    (execute env clientUserId msg).1.map SendCall.channelId = [a]
    ∧ (execute env clientUserId msg).2
      = some (MessageLinkRec.mk msg.author.id msg.id msg.channelId
          [MessageLinkItem.mk mA.id a, MessageLinkItem.mk msg.id msg.channelId])
    ∧ (MessageLinkRec.mk msg.author.id msg.id msg.channelId
        [MessageLinkItem.mk mA.id a, MessageLinkItem.mk msg.id msg.channelId]).links.dropLast
      = [MessageLinkItem.mk mA.id a]
    ∧ ∀ e ∈ (MessageLinkRec.mk msg.author.id msg.id msg.channelId
        [MessageLinkItem.mk mA.id a, MessageLinkItem.mk msg.id msg.channelId]).links,
        e.channelId ≠ b := by
  have hbrA : translateChannel env msg a srcTr
      = ([SendCall.mk a (Payload.mk (msgUsername msg) (msgAvatarURL msg)
          (addReplyPing (some (decode outA (encode msg.content).2))
            (replyAuthorIdOf (env.reply a)))
          msg.attachments (env.reply a).isSome)], Except.ok (some mA)) := by
    unfold translateChannel
    rw [hchA]
    dsimp only
    rw [if_neg (by simp)]
    rw [hwhA]
    dsimp only
    rw [htgtA]
    dsimp only
    rw [hsticker]
    dsimp only [List.head?_nil]
    rw [translate_ok hcontent htrA]
    dsimp only
    unfold sendVia
    rw [hsendA]
  have hbrB : translateChannel env msg b srcTr = ([], Except.ok none) := by
    unfold translateChannel
    rw [hchB]
    dsimp only
    rw [if_neg (by simp)]
    rw [hwhB]
    dsimp only
    rw [htgtB]
    dsimp only
    rw [hsticker]
    dsimp only [List.head?_nil]
    rw [translate_err hcontent htrB]
  have hexec : execute env clientUserId msg
      = ([SendCall.mk a (Payload.mk (msgUsername msg) (msgAvatarURL msg)
          (addReplyPing (some (decode outA (encode msg.content).2))
            (replyAuthorIdOf (env.reply a)))
          msg.attachments (env.reply a).isSome)],
        some (MessageLinkRec.mk msg.author.id msg.id msg.channelId
          [MessageLinkItem.mk mA.id mA.channelId, MessageLinkItem.mk msg.id msg.channelId])) := by
    unfold execute
    rw [if_neg (by rintro ⟨-, h2, -⟩; rw [hwebhook] at h2; simp at h2)]
    unfold executeCore
    rw [hsrc, hlink]
    dsimp only
    rw [List.map_cons, List.map_cons, List.map_nil, hbrA, hbrB]
    simp [isErr]
  rw [hexec, hmA]
  refine ⟨rfl, rfl, rfl, ?_⟩
  intro e he
  rcases List.mem_cons.mp he with he | he
  · subst he
    exact fun heq => hba heq.symm
  · rcases List.mem_cons.mp he with he | he
    · subst he
      exact fun heq => hbo heq.symm
    · simp at he

/-- Witness for C1 at the concrete two-target environment. -/
theorem execute_partial_translate_failure_witness :
    (execute envC1 "client" msgC1).1.map SendCall.channelId = ["a"]
    ∧ (execute envC1 "client" msgC1).2
      = some (MessageLinkRec.mk "u1" "m1" "o"
          [MessageLinkItem.mk "wa" "a", MessageLinkItem.mk "m1" "o"])
    ∧ (MessageLinkRec.mk "u1" "m1" "o"
        [MessageLinkItem.mk "wa" "a", MessageLinkItem.mk "m1" "o"]).links.dropLast
      = [MessageLinkItem.mk "wa" "a"]
    ∧ ∀ e ∈ (MessageLinkRec.mk "u1" "m1" "o"
        [MessageLinkItem.mk "wa" "a", MessageLinkItem.mk "m1" "o"]).links,
        e.channelId ≠ "b" :=
  execute_partial_translate_failure envC1 "client" msgC1 "a" "b"
    (TrChannel.mk "EN" "XX") (TrChannel.mk "EN" "LA") (TrChannel.mk "EN" "LB")
    (SentMsg.mk "wa" "a") "done"
    rfl rfl (by decide) rfl rfl rfl rfl rfl rfl rfl rfl rfl rfl
    (fun p => rfl) rfl (by decide) (by decide)

theorem stickerURL_ne_empty (sid : String) : stickerURL sid ≠ "" := by
  intro h
  have h2 := congrArg String.length h
  rw [stickerURL] at h2
  rw [String.length_append, String.length_append] at h2
  have h3 : (".webp").length = 5 := rfl
  have h4 : ("" : String).length = 0 := rfl
  rw [h3, h4] at h2
  omega

/-- Translated branch: composition of the translated content with the
reply-ping decision. -/
theorem reply_ping_translated
    (env : Env) (msg : Msg) (cid : String) (srcTr tgtTr : TrChannel)
    (r : Reply) (out tc : String)
    (hch : env.channels cid = some (ChannelInfo.mk true))
    (hwh : env.webhookGet cid = Except.ok ())
    (htgt : env.trChannels cid = some tgtTr)
    (hreply : env.reply cid = some r)
    (hsticker : msg.stickers = [])
    (hcontent : jsTrim msg.content ≠ "")
    (htr : env.translator (encode msg.content).1 srcTr.sourceLang tgtTr.targetLang
      = Except.ok out)
    (htc : tc = decode out (encode msg.content).2)
    (htcne : tc ≠ "")
    (haid : r.authorId ≠ "") :
    (translateChannel env msg cid srcTr).1
      = [SendCall.mk cid (Payload.mk (msgUsername msg) (msgAvatarURL msg)
          (some (if r.authorBot = true ∨ strIncludes tc ("<@" ++ r.authorId ++ ">") = true
            then tc else tc ++ " " ++ "<@" ++ r.authorId ++ ">"))
          msg.attachments true)] := by
  have hpay : addReplyPing (some (decode out (encode msg.content).2))
      (replyAuthorIdOf (env.reply cid))
      = some (if r.authorBot = true ∨ strIncludes tc ("<@" ++ r.authorId ++ ">") = true
          then tc else tc ++ " " ++ "<@" ++ r.authorId ++ ">") := by
    rw [hreply, ← htc]
    unfold replyAuthorIdOf addReplyPing
    dsimp only
    by_cases hbot : r.authorBot = true
    · simp [hbot]
    · rw [if_neg hbot]
      dsimp only
      rw [if_neg haid]
      rw [if_neg htcne]
      by_cases hinc : strIncludes tc ("<@" ++ r.authorId ++ ">") = true
      · simp [hbot, hinc]
      · simp [hbot, hinc]
  unfold translateChannel
  rw [hch]
  dsimp only
  rw [if_neg (by simp)]
  rw [hwh]
  dsimp only
  rw [htgt]
  dsimp only
  rw [hsticker]
  dsimp only [List.head?_nil]
  rw [translate_ok hcontent htr]
  dsimp only
  rw [hpay, hreply]
  unfold sendVia
  cases hs : env.send cid (Payload.mk (msgUsername msg) (msgAvatarURL msg)
      (some (if r.authorBot = true ∨ strIncludes tc ("<@" ++ r.authorId ++ ">") = true
        then tc else tc ++ " " ++ "<@" ++ r.authorId ++ ">"))
      msg.attachments (some r).isSome) <;> simp [hs]

/-- Sticker branch: same reply-ping decision applied to the sticker
link. -/
theorem reply_ping_sticker
    (env : Env) (msg : Msg) (cid : String) (srcTr tgtTr : TrChannel)
    (r : Reply) (sid : String) (rest : List String)
    (hch : env.channels cid = some (ChannelInfo.mk true))
    (hwh : env.webhookGet cid = Except.ok ())
    (htgt : env.trChannels cid = some tgtTr)
    (hreply : env.reply cid = some r)
    (hsticker : msg.stickers = sid :: rest)
    (haid : r.authorId ≠ "") :
    (translateChannel env msg cid srcTr).1
      = [SendCall.mk cid (Payload.mk (msgUsername msg) (msgAvatarURL msg)
          (some (if r.authorBot = true
              ∨ strIncludes (stickerURL sid) ("<@" ++ r.authorId ++ ">") = true
            then stickerURL sid else stickerURL sid ++ " " ++ "<@" ++ r.authorId ++ ">"))
          [] true)] := by
  have hpay : addReplyPing (some (stickerURL sid)) (replyAuthorIdOf (env.reply cid))
      = some (if r.authorBot = true
          ∨ strIncludes (stickerURL sid) ("<@" ++ r.authorId ++ ">") = true
        then stickerURL sid else stickerURL sid ++ " " ++ "<@" ++ r.authorId ++ ">") := by
    rw [hreply]
    unfold replyAuthorIdOf addReplyPing
    dsimp only
    by_cases hbot : r.authorBot = true
    · simp [hbot]
    · rw [if_neg hbot]
      dsimp only
      rw [if_neg haid]
      rw [if_neg (stickerURL_ne_empty sid)]
      by_cases hinc : strIncludes (stickerURL sid) ("<@" ++ r.authorId ++ ">") = true
      · simp [hbot, hinc]
      · simp [hbot, hinc]
  unfold translateChannel
  rw [hch]
  dsimp only
  rw [if_neg (by simp)]
  rw [hwh]
  dsimp only
  rw [htgt]
  dsimp only
  rw [hsticker]
  dsimp only [List.head?_cons]
  rw [hpay, hreply]
  unfold sendVia
  cases hs : env.send cid (Payload.mk (msgUsername msg) (msgAvatarURL msg)
      (some (if r.authorBot = true
          ∨ strIncludes (stickerURL sid) ("<@" ++ r.authorId ++ ">") = true
        then stickerURL sid else stickerURL sid ++ " " ++ "<@" ++ r.authorId ++ ">"))
      [] (some r).isSome) <;> simp [hs]

/-- C7: on every relayed post of a reply — translated branch and
sticker branch alike — the output content carries an appended mention
of the replied-to author exactly when that author is human (not a bot)
and the content does not already contain that mention; when the
mention is already present, or the author is a bot, the content is
posted unchanged. -/
theorem translateChannel_reply_ping :
    (∀ (env : Env) (msg : Msg) (cid : String) (srcTr tgtTr : TrChannel)
      (r : Reply) (out tc : String),
      env.channels cid = some (ChannelInfo.mk true) →
      env.webhookGet cid = Except.ok () →
      env.trChannels cid = some tgtTr →
      env.reply cid = some r →
      msg.stickers = [] →
      jsTrim msg.content ≠ "" →
      env.translator (encode msg.content).1 srcTr.sourceLang tgtTr.targetLang = Except.ok out →
      tc = decode out (encode msg.content).2 →
      tc ≠ "" →
      r.authorId ≠ "" →
      (translateChannel env msg cid srcTr).1
        = [SendCall.mk cid (Payload.mk (msgUsername msg) (msgAvatarURL msg)
            (some (if r.authorBot = true ∨ strIncludes tc ("<@" ++ r.authorId ++ ">") = true
              then tc else tc ++ " " ++ "<@" ++ r.authorId ++ ">"))
            msg.attachments true)])
    ∧ (∀ (env : Env) (msg : Msg) (cid : String) (srcTr tgtTr : TrChannel)
        (r : Reply) (sid : String) (rest : List String),
        env.channels cid = some (ChannelInfo.mk true) →
        env.webhookGet cid = Except.ok () →
        env.trChannels cid = some tgtTr →
        env.reply cid = some r →
        msg.stickers = sid :: rest →
        r.authorId ≠ "" →
        (translateChannel env msg cid srcTr).1
          = [SendCall.mk cid (Payload.mk (msgUsername msg) (msgAvatarURL msg)
              (some (if r.authorBot = true
                  ∨ strIncludes (stickerURL sid) ("<@" ++ r.authorId ++ ">") = true
                then stickerURL sid
                else stickerURL sid ++ " " ++ "<@" ++ r.authorId ++ ">"))
              [] true)]) :=
  ⟨fun env msg cid srcTr tgtTr r out tc hch hwh htgt hreply hsticker hcontent htr htc htcne
      haid => reply_ping_translated env msg cid srcTr tgtTr r out tc hch hwh htgt hreply
        hsticker hcontent htr htc htcne haid,
    fun env msg cid srcTr tgtTr r sid rest hch hwh htgt hreply hsticker haid =>
      reply_ping_sticker env msg cid srcTr tgtTr r sid rest hch hwh htgt hreply hsticker haid⟩

/-- Witness for C7: the replied-to author `u9` is human and not yet
mentioned, so the mention is appended both to a translated text and to
a relayed sticker link. -/
theorem translateChannel_reply_ping_witness :
    (translateChannel envC7 msgC7 "t" (TrChannel.mk "EN" "IT")).1
      = [SendCall.mk "t" (Payload.mk "U" none (some "hello <@u9>") [] true)]
    ∧ (translateChannel envC7 msgC7s "t" (TrChannel.mk "EN" "IT")).1
      = [SendCall.mk "t" (Payload.mk "U" none
          (some "https://media.discordapp.net/stickers/77.webp <@u9>") [] true)] :=
  ⟨translateChannel_reply_ping.1 envC7 msgC7 "t" (TrChannel.mk "EN" "IT")
      (TrChannel.mk "EN" "IT") (Reply.mk false "u9") "hello" (decode "hello" (encode "x").2)
      rfl rfl rfl rfl rfl (by decide) rfl rfl (by decide) (by decide),
    translateChannel_reply_ping.2 envC7 msgC7s "t" (TrChannel.mk "EN" "IT")
      (TrChannel.mk "EN" "IT") (Reply.mk false "u9") "77" []
      rfl rfl rfl rfl rfl (by decide)⟩

theorem isErr_sendVia (env : Env) (cid : String) (p : Payload) :
    isErr (sendVia env cid p).2 = false := by
  unfold sendVia
  cases env.send cid p <;> rfl

/-- A fan-out branch can only end in an uncaught rejection through the
`webhookCache.get` call, which the source places outside the `try`
block; every other failure is contained in the branch. -/
theorem translateChannel_error_webhook (env : Env) (msg : Msg) (cid : String)
    (srcTr : TrChannel) (h : isErr (translateChannel env msg cid srcTr).2 = true) :
    env.webhookGet cid = Except.error () := by
  unfold translateChannel at h
  cases hch : env.channels cid with
  | none => rw [hch] at h; simp [isErr] at h
  | some channel =>
    rw [hch] at h
    dsimp only at h
    by_cases hg : channel.isGuildText = false
    · rw [if_pos hg] at h; simp [isErr] at h
    · rw [if_neg hg] at h
      cases hwh : env.webhookGet cid with
      | error u => cases u; rfl
      | ok u =>
        rw [hwh] at h
        dsimp only at h
        cases htg : env.trChannels cid with
        | none => rw [htg] at h; simp [isErr] at h
        | some tgt =>
          rw [htg] at h
          dsimp only at h
          cases hst : msg.stickers.head? with
          | some sid =>
            rw [hst] at h
            dsimp only at h
            rw [isErr_sendVia] at h
            exact absurd h (by simp)
          | none =>
            rw [hst] at h
            dsimp only at h
            cases htr : (translate env.translator msg.content srcTr.sourceLang
                tgt.targetLang).1 with
            | error u2 => rw [htr] at h; simp [isErr] at h
            | ok tc =>
              rw [htr] at h
              dsimp only at h
              rw [isErr_sendVia] at h
              exact absurd h (by simp)

/-- C3 counterexample: a webhook-handle retrieval failure in one of
two fan-out branches is not caught — the sibling branch still sends,
but the fan-in rejects and no message-link record is persisted, so a
branch failure of this kind does prevent the record from being
written. -/
theorem webhook_failure_aborts_persist :
    envC3.webhookGet "b" = Except.error ()
    ∧ (execute envC3 "client" msgC3).1.map SendCall.channelId = ["a"]
    ∧ (execute envC3 "client" msgC3).2 = none :=
  ⟨by decide, by decide, by decide⟩

/-- C3 amended: every failure inside a fan-out branch other than the
webhook-handle retrieval (translation error, missing or non-text
channel, missing target config, send failure) is contained: a branch
outcome is an uncaught rejection only when the branch's webhook lookup
failed; and when no target's webhook lookup fails, the fan-in always
persists a record. -/
theorem branch_failures_contained :
    (∀ (env : Env) (msg : Msg) (cid : String) (srcTr : TrChannel),
      isErr (translateChannel env msg cid srcTr).2 = true →
        env.webhookGet cid = Except.error ())
    ∧ (∀ (env : Env) (clientUserId : String) (msg : Msg) (srcTr : TrChannel) (link : ChLink),
        msg.webhookId = none →
        env.trChannels msg.channelId = some srcTr →
        env.chLinks msg.channelId = some link →
        (∀ t ∈ link.links, env.webhookGet t ≠ Except.error ()) →
        ∃ rec, (execute env clientUserId msg).2 = some rec) := by
  constructor
  · exact translateChannel_error_webhook
  · intro env cu msg srcTr link hweb hsrc hlink hwh
    have hcond : ¬(msg.author.id ≠ cu ∧ msg.webhookId.isSome = true
        ∧ env.msgWebhookOwner = some cu) := by
      rintro ⟨-, h2, -⟩
      rw [hweb] at h2
      simp at h2
    unfold execute
    rw [if_neg hcond]
    unfold executeCore
    rw [hsrc, hlink]
    dsimp only
    have hall : ((link.links.map (fun c => translateChannel env msg c srcTr)).any
        (fun r => isErr r.2)) = false := by
      rw [List.any_eq_false]
      intro r hr
      rcases List.mem_map.mp hr with ⟨c, hc, hrc⟩
      subst hrc
      exact fun habs => hwh c hc (translateChannel_error_webhook env msg c srcTr habs)
    rw [hall]
    rw [if_neg (by simp)]
    exact ⟨_, rfl⟩

/-- Witness for the amended C3: a branch with a failing webhook lookup
is the error case of the first part; an environment whose topology has
no failing webhook lookup persists a record. -/
theorem branch_failures_contained_witness :
    envC3.webhookGet "b" = Except.error ()
    ∧ ∃ rec, (execute envC3b "client" msgC3b).2 = some rec :=
  ⟨branch_failures_contained.1 envC3 msgC3 "b" (TrChannel.mk "EN" "IT") (by decide),
    branch_failures_contained.2 envC3b "client" msgC3b (TrChannel.mk "EN" "IT") (ChLink.mk [])
      rfl rfl rfl (by simp)⟩

theorem filterMap_map_eq {α β γ : Type} (L : List α) (f : α → Option β)
    (g : Option β → Option γ) (h : α → γ) (H : ∀ x ∈ L, g (f x) = some (h x)) :
    (L.map f).filterMap g = L.map h := by
  induction L with
  | nil => rfl
  | cons a L ih =>
    rw [List.map_cons, List.map_cons, List.filterMap_cons, H a (by simp),
      ih (fun x hx => H x (by simp [hx]))]

/-- C4: the edit path never writes to the message-link store — the
store after the event is byte-for-byte the store before, in every
case — and when the origin's record, configs and copies all resolve,
it re-translates the new content and issues one `editMessage` per
existing copy listed in the record, carrying the re-translated
content. -/
theorem executeUpdate_edits_and_frame :
    (∀ (env : UpdEnv) (store : List MessageLinkRec) (msg : UpdMsg),
      (executeUpdate env store msg).2 = store)
    ∧ ∀ (env : UpdEnv) (store : List MessageLinkRec) (msg : UpdMsg)
        (link : MessageLinkRec) (srcTr : TrChannel)
        (tgtOf : String → TrChannel) (tcOf : String → Option String) (widOf : String → String),
        msg.authorBot = false →
        msg.inGuild = true →
        msg.channelIsGuildText = true →
        msg.content ≠ "" →
        store.find? (fun r => r.messageId == msg.id) = some link →
        env.trChannels msg.channelId = some srcTr →
        (∀ l ∈ link.links.filter (fun l => !(l.messageId == msg.id)),
          env.fetchMessage l.channelId l.messageId
            = some (FetchedMsg.mk l.messageId l.channelId (some (widOf l.channelId)) true)) →
        (∀ l ∈ link.links.filter (fun l => !(l.messageId == msg.id)),
          env.trChannels l.channelId = some (tgtOf l.channelId)) →
        (∀ l ∈ link.links.filter (fun l => !(l.messageId == msg.id)),
          translateContent env.translator msg.content msg.guildId srcTr.sourceLang
            (tgtOf l.channelId).targetLang = Except.ok (tcOf l.channelId)) →
        (∀ l ∈ link.links.filter (fun l => !(l.messageId == msg.id)),
          env.webhookGet l.channelId = Except.ok ()) →
        (executeUpdate env store msg).1
          = (link.links.filter (fun l => !(l.messageId == msg.id))).map
              (fun l => EditCall.mk l.channelId l.messageId (tcOf l.channelId)) := by
  constructor
  · intro env store msg
    unfold executeUpdate
    repeat' split
    all_goals rfl
  · intro env store msg link srcTr tgtOf tcOf widOf hbot hguild hgt hcontent hfind hsrc
      hfetch htgt htr hwh
    unfold executeUpdate
    rw [hbot]
    rw [if_neg (by simp)]
    rw [hguild]
    rw [if_neg (by simp)]
    rw [hgt]
    rw [if_neg (by simp)]
    rw [if_neg hcontent]
    rw [hfind]
    dsimp only
    rw [hsrc]
    dsimp only
    unfold getMessagesFromMessageLink
    apply filterMap_map_eq
    intro l hl
    rw [hfetch l hl]
    dsimp only
    rw [if_neg (by simp)]
    rw [if_neg (by simp)]
    rw [htgt l hl]
    dsimp only
    rw [htr l hl]
    dsimp only
    rw [hwh l hl]

/-- Witness for C4: one copy in channel `t1`; the edit fan-out edits
exactly that copy with the re-translated content and the store is
unchanged. -/
theorem executeUpdate_edits_and_frame_witness :
    (executeUpdate envC4 [recC4] msgC4).2 = [recC4]
    ∧ (executeUpdate envC4 [recC4] msgC4).1 = [EditCall.mk "t1" "c1" (some "T")] :=
  ⟨executeUpdate_edits_and_frame.1 envC4 [recC4] msgC4,
    executeUpdate_edits_and_frame.2 envC4 [recC4] msgC4 recC4 (TrChannel.mk "EN" "XX")
      (fun _ => TrChannel.mk "EN" "IT") (fun _ => some "T") (fun _ => "w")
      rfl rfl rfl (by decide) (by decide) rfl (by decide) (by decide) (by decide) (by decide)⟩

end Relay
